import Mathlib

/-!
Shallow embedding of the orderbook-challenge repository (Rust) and proofs of
the frozen claims about it.

Modelling conventions:
* An IEEE-754 64-bit float (`f64`) is modelled by the inductive `F64`: a NaN
  with a sign bit, an infinity with a sign bit, or a finite value given by a
  sign bit and a non-negative rational magnitude (so `-0.0` is
  `F64.finite true 0` and is distinct from `+0.0 = F64.finite false 0`).
  This captures exactly what the code inspects: `is_finite`, `is_sign_positive`
  and IEEE comparison (where `partial_cmp` is `None` iff one side is NaN and
  `-0.0 == +0.0` numerically).
* Values that passed `FinitePositiveF64::try_from` are finite with a positive
  sign bit, so they are order-isomorphic to their non-negative rational
  numeric value (proved in the claim about `Ord for FinitePositiveF64`).
  The merge pipeline (`Level`, `MergeState`, `calculate_levels`) therefore
  represents a constructed `FinitePositiveF64` by its rational value `ℚ`;
  the `spread` subtraction is modelled by exact rational subtraction.
* Rust panics (`expect`, out-of-bounds indexing) are modelled by `Option`
  results (`none` = panic) where a claim is about them.
-/

/-- Model of an IEEE-754 `f64`: NaN carrying its sign bit, a signed infinity,
or a finite value as sign bit plus non-negative magnitude. -/
inductive F64 : Type where
  | nan (neg : Bool)
  | inf (neg : Bool)
  | finite (neg : Bool) (mag : ℚ)
deriving DecidableEq

/-- Model of `f64::is_finite`: true exactly on finite values. -/
def F64.isFinite : F64 → Bool
  | .finite _ _ => true
  | _ => false

/-- Model of `f64::is_sign_positive`: the sign bit is clear. -/
def F64.isSignPositive : F64 → Bool
  | .nan neg => !neg
  | .inf neg => !neg
  | .finite neg _ => !neg

/-- Numeric value of a finite float (sign applied to the magnitude);
infinities and NaN are mapped to 0, which is never relied upon. -/
def F64.value : F64 → ℚ
  | .finite neg mag => if neg then -mag else mag
  | _ => 0

/-- Model of `f64::partial_cmp` (IEEE comparison): `none` iff either side is
NaN; `-0.0` and `+0.0` compare equal; infinities compare as extreme values. -/
def F64.partCmp : F64 → F64 → Option Ordering
  | .nan _, _ => none
  | _, .nan _ => none
  | .inf true, .inf true => some .eq
  | .inf true, _ => some .lt
  | .inf false, .inf false => some .eq
  | .inf false, _ => some .gt
  | .finite _ _, .inf true => some .gt
  | .finite _ _, .inf false => some .lt
  | .finite n₁ m₁, .finite n₂ m₂ =>
      some (compare (F64.finite n₁ m₁).value (F64.finite n₂ m₂).value)

/-- Model of `struct FinitePositiveF64(f64)` from
`src/input/finite_positive_f64.rs`: a newtype around the raw float. The
invariant (finite, positive sign) is established by `tryFrom`, not baked into
the type, mirroring the Rust code where the field is a plain `f64`. -/
structure FinitePositiveF64 : Type where
  val : F64
deriving DecidableEq

/-- Model of `impl TryFrom<f64> for FinitePositiveF64`: reject non-finite
values first, then negatively-signed values, else wrap unchanged. -/
def FinitePositiveF64.tryFrom (value : F64) : Except String FinitePositiveF64 :=
  if !value.isFinite then
    .error "Can\x27t construct FinitePositiveF64 from non finite f64"
  else if !value.isSignPositive then
    .error "Can\x27t construct FinitePositiveF64 from negative f64"
  else
    .ok ⟨value⟩

/-- Model of `impl Ord for FinitePositiveF64`: `partial_cmp(..).expect(..)`.
The `expect` panic on `None` is modelled by the `Option`; the claim about it
shows the `none` branch is unreachable for constructed values. -/
def FinitePositiveF64.cmp (a b : FinitePositiveF64) : Option Ordering :=
  F64.partCmp a.val b.val

/-- Model of `enum Exchange { Binance = 0, Bitstamp = 1 }` from
`src/input/level.rs`. -/
inductive Exchange : Type where
  | binance
  | bitstamp
deriving DecidableEq

/-- Model of `Exchange::VARIANT_COUNT` (derived by the `VariantCount` macro). -/
def Exchange.VARIANT_COUNT : ℕ := 2

/-- The discriminant of the variant (`exchange as usize`). -/
def Exchange.ordinal : Exchange → ℕ
  | .binance => 0
  | .bitstamp => 1

/-- Model of the derived lowercase `Display` for `Exchange`. -/
def Exchange.toStr : Exchange → String
  | .binance => "binance"
  | .bitstamp => "bitstamp"

/-- The exchanges in discriminant order: iteration order of a
`[T; Exchange::VARIANT_COUNT]` array by `iter().enumerate()`. -/
def Exchange.all : List Exchange := [.binance, .bitstamp]

/-- `TOP_LEVELS` from `src/lib.rs`. -/
def TOP_LEVELS : ℕ := 10

/-- Model of `struct Level` from `src/input/level.rs`. A constructed
`FinitePositiveF64` is represented by its rational numeric value. -/
structure Level : Type where
  price : ℚ
  amount : ℚ
deriving DecidableEq

/-- Model of `Level::cmp_bid`: descending by price, ties descending by
amount (`Ordering::reverse` is `Ordering.swap`). -/
def Level.cmp_bid (self other : Level) : Ordering :=
  let c := compare self.price other.price
  if c = .eq then (compare self.amount other.amount).swap else c.swap

/-- Model of `Level::cmp_ask`: ascending by price, ties descending by
amount. -/
def Level.cmp_ask (self other : Level) : Ordering :=
  let c := compare self.price other.price
  if c = .eq then (compare self.amount other.amount).swap else c

/-- Model of `is_sorted` from `src/lib.rs`: every adjacent window of two is
not `Greater`. -/
def is_sorted {α : Type} (levels : List α) (cmp_fn : α → α → Ordering) : Bool :=
  match levels with
  | a :: b :: rest => !(cmp_fn a b == .gt) && is_sorted (b :: rest) cmp_fn
  | _ => true

/-- Alias for the input `Level` type, usable from inside the `orderbook`
namespace where the name `Level` refers to the protobuf level. -/
abbrev InputLevel := Level

namespace orderbook

/-- Model of the protobuf message `orderbook::Level`
(`Level { exchange: string, price: f64, amount: f64 }`). -/
structure Level : Type where
  exchange : String
  price : ℚ
  amount : ℚ
deriving DecidableEq

/-- Model of the protobuf message `orderbook::Summary`. -/
structure Summary : Type where
  spread : ℚ
  asks : List orderbook.Level
  bids : List orderbook.Level
deriving DecidableEq

end orderbook

/-- Model of `impl TryFrom<&orderbook::Level> for Level` (drops the exchange
tag). On values produced by `into_orderbook_level` it cannot fail, which is
the only place the merge code uses it (with `.unwrap()`). -/
def orderbook.Level.toLevel (o : orderbook.Level) : InputLevel :=
  { price := o.price, amount := o.amount }

/-- Model of `Level::into_orderbook_level`. -/
def Level.into_orderbook_level (self : Level) (exchange : Exchange) :
    orderbook.Level :=
  { exchange := exchange.toStr, price := self.price, amount := self.amount }

/-- Model of `struct InputUpdate` from `src/input/input_update.rs`:
the top `TOP_LEVELS` asks and bids received from one exchange. The
capacity bound (`ArrayVec<[Level; TOP_LEVELS]>`) and the sortedness
invariant checked by `debug_assert!` are carried as hypotheses where a
claim needs them. -/
structure InputUpdate : Type where
  exchange : Exchange
  asks : List Level
  bids : List Level
deriving DecidableEq

/-- Model of `InputUpdate::take`: consume and return the contents. -/
def InputUpdate.take (self : InputUpdate) :
    Exchange × List Level × List Level :=
  (self.exchange, self.asks, self.bids)

/-- Model of `impl Into<orderbook::Summary> for InputUpdate` from
`src/input/input_update.rs`. The Rust body indexes `asks[0]` and `bids[0]`
with no emptiness check; the out-of-bounds panic is modelled by `none`. -/
def InputUpdate.intoSummary (self : InputUpdate) : Option orderbook.Summary :=
  let asks := self.asks.map (fun level => level.into_orderbook_level self.exchange)
  let bids := self.bids.map (fun level => level.into_orderbook_level self.exchange)
  match asks, bids with
  | a :: _, b :: _ => some { spread := a.price - b.price, asks := asks, bids := bids }
  | _, _ => none

/-- Model of the element loop of `DeserializeArrayVec::deserialize`
(`visit_seq` in `src/input/deserialize_arrayvec.rs`). State: the filled
elements and the not-yet-consumed suffix of the sequence. Each iteration
evaluates the tuple `(elems.is_full(), seq.next_element()?)`: it pulls the
next element even when the vector is already full (that element is then
discarded because the pattern `(false, Some(elem))` fails). Returns the
collected elements and the part of the sequence left for the trailing
drain loop (which consumes and ignores it all). -/
def dav_loop {α : Type} (cap : ℕ) (elems : List α) : List α → List α × List α
  | [] => (elems, [])
  | x :: rest =>
      if elems.length = cap then (elems, rest)
      else dav_loop cap (elems ++ [x]) rest

/-- Model of `DeserializeArrayVec::deserialize` applied to a well-formed
sequence of items: the collected elements (the trailing drain loop consumes
the remainder of the sequence and discards it). -/
def DeserializeArrayVec.deserialize {α : Type} (cap : ℕ) (seq : List α) : List α :=
  (dav_loop cap [] seq).1

/-- Model of `struct MergeState` from `src/merge.rs`: the per-exchange arrays
`asks: [ArrayVec<[Level; TOP_LEVELS]>; Exchange::VARIANT_COUNT]` (and bids)
modelled as functions from `Exchange`. -/
structure MergeState : Type where
  asks : Exchange → List Level
  bids : Exchange → List Level

/-- Model of `MergeState::new`: all snapshots empty. -/
def MergeState.new : MergeState :=
  { asks := fun _ => [], bids := fun _ => [] }

/-- Model of `MergeState::update`: whole-snapshot replacement of the entry
for the update's exchange. -/
def MergeState.update (self : MergeState) (input : InputUpdate) : MergeState :=
  let (exchange, asks, bids) := input.take
  { asks := Function.update self.asks exchange asks
    bids := Function.update self.bids exchange bids }

/-- Model of the index-search loop inside `calculate_levels`
(`for (i, rev_out) in reverse_output { .. }`): the list argument is
`output.iter().enumerate().rev()`, `len` is `output.len()`, and `acc` is the
mutable `insert_index`. Each stored output level is converted back to a
`Level` (`rev_out.try_into().unwrap()`) before comparison. -/
def findInsertIdx (cmp_fn : Level → Level → Ordering) (size len : ℕ)
    (level : Level) : List (ℕ × orderbook.Level) → Option ℕ → Option ℕ
  | [], acc => acc
  | (i, rev_out) :: rest, acc =>
      if cmp_fn level rev_out.toLevel = .lt then
        findInsertIdx cmp_fn size len level rest (some i)
      else if len < size then some (i + 1)
      else acc

/-- Model of one iteration of the inner `for level in levels` loop of
`calculate_levels`: push if the output is empty, otherwise search for an
insertion index from the back; on insertion pop the worst entry first when
the output is at capacity. (`List.insertIdx` agrees with Rust
`Vec::insert` on all in-bounds indices, the only ones that occur.) -/
def insertLevel (cmp_fn : Level → Level → Ordering) (size : ℕ)
    (exchange : Exchange) (level : Level) (output : List orderbook.Level) :
    List orderbook.Level :=
  if output.isEmpty then output ++ [level.into_orderbook_level exchange]
  else
    match findInsertIdx cmp_fn size output.length level output.enum.reverse none with
    | none => output
    | some i =>
        let output := if size ≤ output.length then output.dropLast else output
        output.insertIdx i (level.into_orderbook_level exchange)

/-- Model of `calculate_levels` from `src/merge.rs`: fold the per-exchange
level lists, in discriminant order, through `insertLevel`. -/
def calculate_levels (exchanges : Exchange → List Level)
    (cmp_fn : Level → Level → Ordering) (size : ℕ) : List orderbook.Level :=
  Exchange.all.foldl
    (fun output exchange =>
      (exchanges exchange).foldl
        (fun output level => insertLevel cmp_fn size exchange level output)
        output)
    []

/-- Model of `MergeState::summary`. -/
def MergeState.summary (self : MergeState) : orderbook.Summary :=
  let asks := calculate_levels self.asks Level.cmp_ask
    (TOP_LEVELS * Exchange.VARIANT_COUNT)
  let bids := calculate_levels self.bids Level.cmp_bid
    (TOP_LEVELS * Exchange.VARIANT_COUNT)
  let spread :=
    match asks, bids with
    | a :: _, b :: _ => a.price - b.price
    | _, _ => 0
  { spread := spread, asks := asks, bids := bids }

/-- Model of the `merge` stream loop from `src/merge.rs`: starting from a
state, apply each received `InputUpdate` in turn and emit the summary after
each one. -/
def merge_emitted (state : MergeState) : List InputUpdate → List orderbook.Summary
  | [] => []
  | input :: rest =>
      let state := state.update input
      state.summary :: merge_emitted state rest

/-! ### Helper lemmas on rational comparison and the two level orderings -/

/-- Swapping the comparison of two rationals compares them the other way. -/
theorem rat_compare_swap (a b : ℚ) : (compare a b).swap = compare b a := by
  rcases lt_trichotomy a b with h | h | h
  · rw [compare_lt_iff_lt.mpr h, compare_gt_iff_gt.mpr h]; rfl
  · subst h; rw [compare_eq_iff_eq.mpr rfl]; rfl
  · rw [compare_gt_iff_gt.mpr h, compare_lt_iff_lt.mpr h]; rfl

theorem cmp_ask_lt_iff (a b : Level) :
    a.cmp_ask b = .lt ↔ a.price < b.price ∨ (a.price = b.price ∧ b.amount < a.amount) := by
  simp only [Level.cmp_ask]
  rcases lt_trichotomy a.price b.price with h | h | h
  · rw [compare_lt_iff_lt.mpr h]
    simp [h]
  · rw [compare_eq_iff_eq.mpr h, if_pos rfl, rat_compare_swap, compare_lt_iff_lt]
    simp [h]
  · rw [compare_gt_iff_gt.mpr h]
    simp [asymm h, ne_of_gt h]

theorem cmp_ask_eq_iff (a b : Level) :
    a.cmp_ask b = .eq ↔ a.price = b.price ∧ a.amount = b.amount := by
  simp only [Level.cmp_ask]
  rcases lt_trichotomy a.price b.price with h | h | h
  · rw [compare_lt_iff_lt.mpr h]
    simp [ne_of_lt h]
  · rw [compare_eq_iff_eq.mpr h, if_pos rfl, rat_compare_swap, compare_eq_iff_eq]
    simp [h, eq_comm]
  · rw [compare_gt_iff_gt.mpr h]
    simp [ne_of_gt h]

theorem cmp_ask_gt_iff (a b : Level) :
    a.cmp_ask b = .gt ↔ b.price < a.price ∨ (a.price = b.price ∧ a.amount < b.amount) := by
  simp only [Level.cmp_ask]
  rcases lt_trichotomy a.price b.price with h | h | h
  · rw [compare_lt_iff_lt.mpr h]
    simp [asymm h, ne_of_lt h]
  · rw [compare_eq_iff_eq.mpr h, if_pos rfl, rat_compare_swap, compare_gt_iff_gt]
    simp [h]
  · rw [compare_gt_iff_gt.mpr h]
    simp [h]

theorem cmp_bid_lt_iff (a b : Level) :
    a.cmp_bid b = .lt ↔ b.price < a.price ∨ (a.price = b.price ∧ b.amount < a.amount) := by
  simp only [Level.cmp_bid]
  rcases lt_trichotomy a.price b.price with h | h | h
  · rw [compare_lt_iff_lt.mpr h]
    simp [asymm h, ne_of_lt h, Ordering.swap]
  · rw [compare_eq_iff_eq.mpr h, if_pos rfl, rat_compare_swap, compare_lt_iff_lt]
    simp [h]
  · rw [compare_gt_iff_gt.mpr h]
    simp [h, Ordering.swap]

theorem cmp_bid_eq_iff (a b : Level) :
    a.cmp_bid b = .eq ↔ a.price = b.price ∧ a.amount = b.amount := by
  simp only [Level.cmp_bid]
  rcases lt_trichotomy a.price b.price with h | h | h
  · rw [compare_lt_iff_lt.mpr h]
    simp [ne_of_lt h, Ordering.swap]
  · rw [compare_eq_iff_eq.mpr h, if_pos rfl, rat_compare_swap, compare_eq_iff_eq]
    simp [h, eq_comm]
  · rw [compare_gt_iff_gt.mpr h]
    simp [ne_of_gt h, Ordering.swap]

theorem cmp_bid_gt_iff (a b : Level) :
    a.cmp_bid b = .gt ↔ a.price < b.price ∨ (a.price = b.price ∧ a.amount < b.amount) := by
  simp only [Level.cmp_bid]
  rcases lt_trichotomy a.price b.price with h | h | h
  · rw [compare_lt_iff_lt.mpr h]
    simp [h, Ordering.swap]
  · rw [compare_eq_iff_eq.mpr h, if_pos rfl, rat_compare_swap, compare_gt_iff_gt]
    simp [h]
  · rw [compare_gt_iff_gt.mpr h]
    simp [asymm h, ne_of_gt h, Ordering.swap]

/-! ### Claim C7: the two orderings on levels -/

/-- C7: `cmp_ask` orders primarily by ascending price with ties broken by
descending amount, and `cmp_bid` primarily by descending price with ties
broken by descending amount, characterised through the `lt`/`eq`/`gt`
results of each comparator; in particular the least element of each
ordering is the lowest-priced (resp. highest-priced) largest-amount level. -/
theorem cmp_ask_cmp_bid_orderings (a b : Level) :
    (a.cmp_ask b = .lt ↔ a.price < b.price ∨ (a.price = b.price ∧ b.amount < a.amount))
  ∧ (a.cmp_ask b = .eq ↔ a.price = b.price ∧ a.amount = b.amount)
  ∧ (a.cmp_ask b = .gt ↔ b.price < a.price ∨ (a.price = b.price ∧ a.amount < b.amount))
  ∧ (a.cmp_bid b = .lt ↔ b.price < a.price ∨ (a.price = b.price ∧ b.amount < a.amount))
  ∧ (a.cmp_bid b = .eq ↔ a.price = b.price ∧ a.amount = b.amount)
  ∧ (a.cmp_bid b = .gt ↔ a.price < b.price ∨ (a.price = b.price ∧ a.amount < b.amount)) :=
  ⟨cmp_ask_lt_iff a b, cmp_ask_eq_iff a b, cmp_ask_gt_iff a b,
    cmp_bid_lt_iff a b, cmp_bid_eq_iff a b, cmp_bid_gt_iff a b⟩

/-! ### Claim C3: FinitePositiveF64 construction -/

/-- C3: constructing a `FinitePositiveF64` from a float `v` succeeds, wrapping
`v` unchanged, exactly when `v` is finite with a positive sign; `-0.0`
(`finite true 0`), NaN and both infinities are rejected with the
construction error. -/
theorem finite_positive_tryFrom_spec (v : F64) :
    ((FinitePositiveF64.tryFrom v).isOk = (v.isFinite && v.isSignPositive))
  ∧ (FinitePositiveF64.tryFrom v = .ok ⟨v⟩ ↔
      v.isFinite = true ∧ v.isSignPositive = true)
  ∧ (FinitePositiveF64.tryFrom (.finite true 0) =
      .error "Can\x27t construct FinitePositiveF64 from negative f64")
  ∧ (∀ s : Bool, FinitePositiveF64.tryFrom (.nan s) =
      .error "Can\x27t construct FinitePositiveF64 from non finite f64")
  ∧ (∀ s : Bool, FinitePositiveF64.tryFrom (.inf s) =
      .error "Can\x27t construct FinitePositiveF64 from non finite f64") := by
  refine ⟨?_, ?_, rfl, fun s => by cases s <;> rfl, fun s => by cases s <;> rfl⟩
  · rcases v with s | s | ⟨s, m⟩ <;> cases s <;> rfl
  · rcases v with s | s | ⟨s, m⟩ <;> cases s <;>
      simp [FinitePositiveF64.tryFrom, F64.isFinite, F64.isSignPositive]

/-! ### Claim C8: Ord for FinitePositiveF64 is total on constructed values -/

/-- C8: for any two values that passed `FinitePositiveF64::try_from`,
`partial_cmp` is defined (so the `expect` panic branch of `Ord::cmp` is
unreachable) and the comparison is the natural numeric order of the wrapped
floats. -/
theorem finite_positive_cmp_total (v₁ v₂ : F64) (r₁ r₂ : FinitePositiveF64)
    (h₁ : FinitePositiveF64.tryFrom v₁ = .ok r₁)
    (h₂ : FinitePositiveF64.tryFrom v₂ = .ok r₂) :
    FinitePositiveF64.cmp r₁ r₂ = some (compare r₁.val.value r₂.val.value) := by
  rcases v₁ with s | s | ⟨s, m⟩ <;> rcases v₂ with t | t | ⟨t, n⟩ <;>
    cases s <;> cases t <;>
    simp only [FinitePositiveF64.tryFrom, F64.isFinite, F64.isSignPositive,
      Bool.not_true, Bool.not_false, if_true, if_false, reduceCtorEq,
      Bool.false_eq_true, Except.ok.injEq, reduceIte] at h₁ h₂ <;>
    subst h₁ <;> subst h₂ <;> rfl

/-- Witness for C8 at the concrete floats `1.0` and `2.0`. -/
theorem finite_positive_cmp_total_witness :
    FinitePositiveF64.cmp ⟨.finite false 1⟩ ⟨.finite false 2⟩ =
      some (compare (F64.finite false 1).value (F64.finite false 2).value) :=
  finite_positive_cmp_total (.finite false 1) (.finite false 2) _ _ rfl rfl

/-! ### Claim C4: bounded deserialization of level arrays -/

/-- The fill loop collects the first `cap - acc.length` items and leaves
everything after one further pulled item for the drain loop. -/
theorem dav_loop_eq {α : Type} (cap : ℕ) (seq : List α) : ∀ acc : List α,
    acc.length ≤ cap →
    dav_loop cap acc seq =
      (acc ++ seq.take (cap - acc.length), seq.drop (cap - acc.length + 1)) := by
  induction seq with
  | nil => intro acc _; simp [dav_loop]
  | cons x rest ih =>
      intro acc hacc
      by_cases h : acc.length = cap
      · simp [dav_loop, h, Nat.sub_self]
      · have hlt : acc.length < cap := lt_of_le_of_ne hacc h
        have hk : cap - acc.length = cap - (acc.length + 1) + 1 := by omega
        have step : dav_loop cap acc (x :: rest) = dav_loop cap (acc ++ [x]) rest := by
          simp [dav_loop, h]
        rw [step, ih (acc ++ [x]) (by simp [Nat.succ_le_of_lt hlt]), hk]
        simp [List.take_succ_cons, List.drop_succ_cons]

/-- C4: deserializing an asks/bids array keeps exactly the first
`TOP_LEVELS` entries in order (the whole array when it has at most
`TOP_LEVELS` entries), while the remaining entries are consumed by the
loop but discarded. -/
theorem deserialize_arrayvec_truncates {α : Type} (seq : List α) :
    DeserializeArrayVec.deserialize TOP_LEVELS seq = seq.take TOP_LEVELS
  ∧ (seq.length ≤ TOP_LEVELS → DeserializeArrayVec.deserialize TOP_LEVELS seq = seq)
  ∧ (TOP_LEVELS < seq.length →
      (DeserializeArrayVec.deserialize TOP_LEVELS seq).length = TOP_LEVELS)
  ∧ dav_loop TOP_LEVELS [] seq = (seq.take TOP_LEVELS, seq.drop (TOP_LEVELS + 1)) := by
  have h := dav_loop_eq TOP_LEVELS seq [] (by simp)
  simp only [List.length_nil, Nat.sub_zero, List.nil_append] at h
  refine ⟨?_, ?_, ?_, h⟩
  · rw [DeserializeArrayVec.deserialize, h]
  · intro hle
    rw [DeserializeArrayVec.deserialize, h]
    exact List.take_of_length_le hle
  · intro hlt
    rw [DeserializeArrayVec.deserialize, h]
    simp [List.length_take]
    omega

/-- Witness for C4: a 12-element array is cut to its first 10 elements, a
5-element array is kept whole. -/
theorem deserialize_arrayvec_truncates_witness :
    DeserializeArrayVec.deserialize TOP_LEVELS (List.range 12) =
      (List.range 12).take TOP_LEVELS
  ∧ DeserializeArrayVec.deserialize TOP_LEVELS (List.range 5) = List.range 5 :=
  ⟨(deserialize_arrayvec_truncates (List.range 12)).1,
    (deserialize_arrayvec_truncates (List.range 5)).2.1 (by decide)⟩

/-! ### Claim C9: the direct InputUpdate → Summary conversion -/

/-- C9: `Into<orderbook::Summary> for InputUpdate` computes the spread as
`asks[0].price - bids[0].price` with no emptiness check: with both sides
non-empty it produces that spread, and with either side empty the indexing
is out of bounds, modelled by `none` (a panic), rather than a spread of 0. -/
theorem input_update_into_summary_spec (u : InputUpdate) :
    (∀ a as b bs, u.asks = a :: as → u.bids = b :: bs →
      u.intoSummary = some
        ⟨a.price - b.price,
          u.asks.map (fun l => l.into_orderbook_level u.exchange),
          u.bids.map (fun l => l.into_orderbook_level u.exchange)⟩)
  ∧ (u.asks = [] ∨ u.bids = [] → u.intoSummary = none) := by
  constructor
  · intro a as b bs ha hb
    simp [InputUpdate.intoSummary, ha, hb, Level.into_orderbook_level]
  · intro h
    rcases h with h | h
    · simp [InputUpdate.intoSummary, h]
    · rcases ha : u.asks with _ | ⟨a, as⟩ <;>
        simp [InputUpdate.intoSummary, h, ha]

/-- Witness for C9: a one-level update yields its spread; an update with
empty bids panics (`none`). -/
theorem input_update_into_summary_witness :
    InputUpdate.intoSummary ⟨.binance, [⟨1, 1⟩], [⟨(1 : ℚ)/2, 1⟩]⟩ =
      some ⟨1 - 1/2, [⟨"binance", 1, 1⟩], [⟨"binance", 1/2, 1⟩]⟩
  ∧ InputUpdate.intoSummary ⟨.binance, [⟨1, 1⟩], []⟩ = none :=
  ⟨(input_update_into_summary_spec _).1 ⟨1, 1⟩ [] ⟨1/2, 1⟩ [] rfl rfl,
    (input_update_into_summary_spec _).2 (Or.inr rfl)⟩

/-! ### Claims C5 and C6: MergeState.update -/

/-- C5: applying the same `InputUpdate` twice in succession and taking the
summary after each application yields two structurally equal summaries
(the second application leaves the state unchanged). -/
theorem duplicate_update_same_summary (st : MergeState) (u : InputUpdate) :
    ((st.update u).update u).summary = (st.update u).summary := by
  have hstate : (st.update u).update u = st.update u := by
    simp [MergeState.update, InputUpdate.take, Function.update_idem]
  rw [hstate]

/-- C6: `MergeState::update` replaces exactly the stored asks and bids of
the update's exchange with the update's snapshots and leaves every other
exchange's stored snapshots unchanged. -/
theorem update_frame (st : MergeState) (u : InputUpdate) :
    (st.update u).asks u.exchange = u.asks
  ∧ (st.update u).bids u.exchange = u.bids
  ∧ ∀ e : Exchange, e ≠ u.exchange →
      (st.update u).asks e = st.asks e ∧ (st.update u).bids e = st.bids e := by
  refine ⟨?_, ?_, fun e he => ⟨?_, ?_⟩⟩
  · simp [MergeState.update, InputUpdate.take]
  · simp [MergeState.update, InputUpdate.take]
  · simp [MergeState.update, InputUpdate.take, Function.update_noteq he]
  · simp [MergeState.update, InputUpdate.take, Function.update_noteq he]

/-- Witness for C6 at a concrete state, update and other exchange. -/
theorem update_frame_witness :
    (MergeState.new.update ⟨.binance, [⟨1, 1⟩], [⟨2, 1⟩]⟩).asks .binance = [⟨1, 1⟩]
  ∧ (MergeState.new.update ⟨.binance, [⟨1, 1⟩], [⟨2, 1⟩]⟩).bids .binance = [⟨2, 1⟩]
  ∧ (MergeState.new.update ⟨.binance, [⟨1, 1⟩], [⟨2, 1⟩]⟩).asks .bitstamp =
      MergeState.new.asks .bitstamp
  ∧ (MergeState.new.update ⟨.binance, [⟨1, 1⟩], [⟨2, 1⟩]⟩).bids .bitstamp =
      MergeState.new.bids .bitstamp := by
  have h := update_frame MergeState.new ⟨.binance, [⟨1, 1⟩], [⟨2, 1⟩]⟩
  exact ⟨h.1, h.2.1, (h.2.2 .bitstamp (by decide)).1, (h.2.2 .bitstamp (by decide)).2⟩

/-- Witness for C3: `1.0` is accepted and wrapped unchanged. -/
theorem finite_positive_tryFrom_spec_witness :
    FinitePositiveF64.tryFrom (.finite false 1) = .ok ⟨.finite false 1⟩ :=
  (finite_positive_tryFrom_spec (.finite false 1)).2.1.mpr (by decide)

/-- Witness for C7 at concrete levels. -/
theorem cmp_ask_cmp_bid_orderings_witness :
    Level.cmp_ask ⟨1, 1⟩ ⟨2, 1⟩ = .lt :=
  (cmp_ask_cmp_bid_orderings ⟨1, 1⟩ ⟨2, 1⟩).1.mpr (Or.inl (by norm_num))

/-! ### Specification-side sorting model for `calculate_levels`

`calculate_levels` is proved equal to: tag every level with its exchange,
concatenate the per-exchange lists in discriminant order, stable-insertion
sort by the comparator (equal keys keep insertion order), truncate to
`size`, and render to protobuf levels. -/

/-- Tag-preserving rendering of an (exchange, level) pair. -/
def toOL (p : Exchange × Level) : orderbook.Level :=
  p.2.into_orderbook_level p.1

/-- The comparator lifted to tagged levels: it compares only the level. -/
def pairCmp (cmp_fn : Level → Level → Ordering) (a b : Exchange × Level) :
    Ordering :=
  cmp_fn a.2 b.2

/-- Insert `x` into `l` before the first element that compares greater
than it: `x` lands after every element it ties with, which makes the
resulting sort stable. -/
def insertSorted {α : Type} (cmp : α → α → Ordering) (x : α) : List α → List α
  | [] => [x]
  | y :: ys => if cmp x y = .lt then x :: y :: ys else y :: insertSorted cmp x ys

/-- Stable insertion sort: insert the elements in their list order. -/
def sortStable {α : Type} (cmp : α → α → Ordering) (l : List α) : List α :=
  l.foldl (fun acc x => insertSorted cmp x acc) []

/-- All levels of all exchanges, tagged, in discriminant order. -/
def allPairs (exchanges : Exchange → List Level) : List (Exchange × Level) :=
  Exchange.all.flatMap (fun e => (exchanges e).map (fun l => (e, l)))

theorem toLevel_toOL (p : Exchange × Level) : (toOL p).toLevel = p.2 := rfl

theorem insertSorted_eq_takeWhile {α : Type} (cmp : α → α → Ordering) (x : α) :
    ∀ l : List α,
      insertSorted cmp x l =
        l.takeWhile (fun y => !(decide (cmp x y = .lt))) ++
          x :: l.dropWhile (fun y => !(decide (cmp x y = .lt)))
  | [] => rfl
  | y :: ys => by
      by_cases h : cmp x y = .lt
      · simp [insertSorted, h, List.takeWhile, List.dropWhile]
      · simp only [insertSorted, if_neg h, List.takeWhile, List.dropWhile,
          decide_eq_true_eq]
        simp [h, insertSorted_eq_takeWhile cmp x ys]

theorem mem_insertSorted {α : Type} (cmp : α → α → Ordering) (x y : α) :
    ∀ l : List α, y ∈ insertSorted cmp x l ↔ y = x ∨ y ∈ l
  | [] => by simp [insertSorted]
  | z :: zs => by
      by_cases h : cmp x z = .lt
      · simp [insertSorted, h]
      · simp only [insertSorted, if_neg h, List.mem_cons,
          mem_insertSorted cmp x y zs]
        tauto

theorem sortStable_append_singleton {α : Type} (cmp : α → α → Ordering)
    (l : List α) (x : α) :
    sortStable cmp (l ++ [x]) = insertSorted cmp x (sortStable cmp l) := by
  simp [sortStable, List.foldl_append]

theorem mem_sortStable {α : Type} (cmp : α → α → Ordering) (y : α)
    (l : List α) : y ∈ sortStable cmp l ↔ y ∈ l := by
  induction l using List.reverseRecOn with
  | nil => simp [sortStable]
  | append_singleton l x ih =>
      rw [sortStable_append_singleton, mem_insertSorted]
      simp [ih, or_comm]

/-! ### Sortedness of the insertion sort -/

/-- Abbreviation for the sortedness relation of a comparator. -/
def NotGt {α : Type} (cmp : α → α → Ordering) (a b : α) : Prop :=
  cmp a b ≠ .gt

theorem notGt_of_not_lt {α : Type} {cmp : α → α → Ordering}
    (hsymm : ∀ a b, (cmp a b).swap = cmp b a) {x y : α}
    (h : ¬ cmp x y = .lt) : NotGt cmp y x := by
  intro hgt
  rw [← hsymm x y] at hgt
  cases hx : cmp x y <;> simp [hx, Ordering.swap] at hgt <;> exact h hx

theorem insertSorted_chain {α : Type} {cmp : α → α → Ordering}
    (hsymm : ∀ a b, (cmp a b).swap = cmp b a) (x : α) :
    ∀ l : List α, List.Chain' (NotGt cmp) l →
      List.Chain' (NotGt cmp) (insertSorted cmp x l)
  | [], _ => List.chain'_singleton x
  | y :: ys, h => by
      by_cases hxy : cmp x y = .lt
      · rw [insertSorted, if_pos hxy, List.chain'_cons]
        exact ⟨fun hgt => by simp [hxy] at hgt, h⟩
      · rw [insertSorted, if_neg hxy]
        have htail : List.Chain' (NotGt cmp) (insertSorted cmp x ys) :=
          insertSorted_chain hsymm x ys h.tail
        cases ys with
        | nil =>
            rw [insertSorted]
            exact List.chain'_cons.mpr ⟨notGt_of_not_lt hsymm hxy,
              List.chain'_singleton x⟩
        | cons z zs =>
            by_cases hxz : cmp x z = .lt
            · rw [insertSorted, if_pos hxz] at htail ⊢
              exact List.chain'_cons.mpr ⟨notGt_of_not_lt hsymm hxy, htail⟩
            · rw [insertSorted, if_neg hxz] at htail ⊢
              exact List.chain'_cons.mpr ⟨(List.chain'_cons.mp h).1, htail⟩

theorem sortStable_chain {α : Type} {cmp : α → α → Ordering}
    (hsymm : ∀ a b, (cmp a b).swap = cmp b a) (l : List α) :
    List.Chain' (NotGt cmp) (sortStable cmp l) := by
  induction l using List.reverseRecOn with
  | nil => simp [sortStable]
  | append_singleton l x ih =>
      rw [sortStable_append_singleton]
      exact insertSorted_chain hsymm x _ ih

/-! ### Everything after the insertion point is strictly greater -/

theorem chain_lt_propagate {α : Type} {cmp : α → α → Ordering}
    (htrans : ∀ a b c, cmp a b = .lt → cmp b c ≠ .gt → cmp a c = .lt)
    (x : α) :
    ∀ (z : α) (rest : List α), cmp x z = .lt →
      List.Chain' (NotGt cmp) (z :: rest) → ∀ y ∈ z :: rest, cmp x y = .lt
  | z, [], hz, _, y, hy => by
      rw [List.mem_singleton.mp hy]; exact hz
  | z, w :: rest, hz, hchain, y, hy => by
      rcases List.mem_cons.mp hy with hyz | hyrest
      · rw [hyz]; exact hz
      · have hzw : NotGt cmp z w := (List.chain'_cons.mp hchain).1
        exact chain_lt_propagate htrans x w rest (htrans x z w hz hzw)
          (List.chain'_cons.mp hchain).2 y hyrest

theorem mem_dropWhile_lt {α : Type} {cmp : α → α → Ordering}
    (htrans : ∀ a b c, cmp a b = .lt → cmp b c ≠ .gt → cmp a c = .lt)
    (x : α) :
    ∀ l : List α, List.Chain' (NotGt cmp) l →
      ∀ y ∈ l.dropWhile (fun y => !(decide (cmp x y = .lt))), cmp x y = .lt
  | [], _, y, hy => by simp [List.dropWhile] at hy
  | z :: rest, hchain, y, hy => by
      by_cases hz : cmp x z = .lt
      · rw [List.dropWhile_cons, if_neg (by simp [hz])] at hy
        exact chain_lt_propagate htrans x z rest hz hchain y hy
      · rw [List.dropWhile_cons, if_pos (by simp [hz])] at hy
        exact mem_dropWhile_lt htrans x rest hchain.tail y hy

/-! ### Characterisation of the reverse index scan -/

/-- Scanning a reversed block of entries that all compare strictly greater
than the new level just records the block's lowest index and goes on. -/
theorem findInsertIdx_rev_lt_block (cmp_fn : Level → Level → Ordering)
    (size len : ℕ) (x : Level) :
    ∀ (B : List orderbook.Level) (n : ℕ) (rest : List (ℕ × orderbook.Level))
      (acc : Option ℕ), (∀ o ∈ B, cmp_fn x o.toLevel = .lt) →
      findInsertIdx cmp_fn size len x ((List.enumFrom n B).reverse ++ rest) acc =
        findInsertIdx cmp_fn size len x rest (if B.isEmpty then acc else some n)
  | [], n, rest, acc, _ => by simp
  | b :: B', n, rest, acc, hB => by
      rw [List.enumFrom_cons, List.reverse_cons, List.append_assoc,
        List.singleton_append,
        findInsertIdx_rev_lt_block cmp_fn size len x B' (n + 1)
          ((n, b) :: rest) acc (fun o ho => hB o (List.mem_cons_of_mem b ho))]
      have hb : cmp_fn x b.toLevel = .lt := hB b (List.mem_cons_self b B')
      cases B' <;> simp [findInsertIdx, hb]

/-- Scanning stops at the first (from the back) entry that is not strictly
greater: with room it inserts right after it, otherwise it keeps whatever
index the strictly-greater suffix recorded. -/
theorem findInsertIdx_rev_notlt_head (cmp_fn : Level → Level → Ordering)
    (size len : ℕ) (x : Level) (i : ℕ) (o : orderbook.Level)
    (rest : List (ℕ × orderbook.Level)) (acc : Option ℕ)
    (h : ¬ cmp_fn x o.toLevel = .lt) :
    findInsertIdx cmp_fn size len x ((i, o) :: rest) acc =
      if len < size then some (i + 1) else acc := by
  rw [findInsertIdx, if_neg h]

/-- Full characterisation of the scan over a sorted output split as a
prefix `A` of entries not greater than the level and a suffix `B` of
strictly greater entries. -/
theorem findInsertIdx_spec (cmp_fn : Level → Level → Ordering)
    (size : ℕ) (x : Level) (A B : List orderbook.Level)
    (hA : ∀ o ∈ A, ¬ cmp_fn x o.toLevel = .lt)
    (hB : ∀ o ∈ B, cmp_fn x o.toLevel = .lt) :
    findInsertIdx cmp_fn size (A ++ B).length x (A ++ B).enum.reverse none =
      if B.isEmpty then
        (if A.isEmpty then none
          else if (A ++ B).length < size then some A.length else none)
      else some A.length := by
  have henum : (A ++ B).enum.reverse =
      (List.enumFrom A.length B).reverse ++ A.enum.reverse := by
    rw [List.enum_append, List.reverse_append]
  rw [henum, findInsertIdx_rev_lt_block cmp_fn size (A ++ B).length x B A.length
    A.enum.reverse none hB]
  induction A using List.reverseRecOn with
  | nil => cases B <;> simp [findInsertIdx]
  | append_singleton A' a _ =>
      have henumA : (A' ++ [a]).enum.reverse =
          (A'.length, a) :: A'.enum.reverse := by
        rw [List.enum_append, List.reverse_append]
        simp [List.enumFrom]
      have ha : ¬ cmp_fn x a.toLevel = .lt :=
        hA a (by simp)
      rw [henumA, findInsertIdx_rev_notlt_head cmp_fn size _ x _ a _ _ ha]
      by_cases hb : B.isEmpty
      · have hBnil : B = [] := by simpa [List.isEmpty_iff] using hb
        subst hBnil
        by_cases hlen : (A' ++ [a] ++ ([] : List orderbook.Level)).length < size <;>
          simp [hlen]
      · have hBne : B ≠ [] := by simpa [List.isEmpty_iff] using hb
        by_cases hlen : (A' ++ [a] ++ B).length < size <;>
          simp [hlen, hBne, List.length_append]

/-! ### One insertion step equals sorted insert plus truncation -/

theorem insertIdx_append_length {α : Type} :
    ∀ (A : List α) (v : α) (B : List α),
      List.insertIdx A.length v (A ++ B) = A ++ v :: B
  | [], v, B => by simp
  | a :: A', v, B => by
      simp [List.insertIdx_succ_cons, insertIdx_append_length A' v B]

theorem dropLast_take {α : Type} (n : ℕ) (l : List α) (h : n ≤ l.length) :
    (List.take n l).dropLast = List.take (n - 1) l := by
  rw [List.dropLast_eq_take, List.length_take, List.take_take]
  congr 1
  omega

/-- Core step identity: inserting level `x` into the rendered truncation of
a sorted list given as a prefix `s₁` of entries not greater than `x`
followed by a suffix `s₂` of strictly greater entries. -/
theorem insertLevel_step_split (cmp_fn : Level → Level → Ordering)
    (size : ℕ) (hsize : 1 ≤ size) (x : Exchange × Level)
    (s₁ s₂ : List (Exchange × Level))
    (hA1 : ∀ y ∈ s₁, ¬ pairCmp cmp_fn x y = .lt)
    (hB1 : ∀ y ∈ s₂, pairCmp cmp_fn x y = .lt) :
    insertLevel cmp_fn size x.1 x.2 (((s₁ ++ s₂).take size).map toOL)
      = ((s₁ ++ x :: s₂).take size).map toOL := by
  rcases eq_or_ne (s₁ ++ s₂) [] with hnil | hne
  · rcases List.append_eq_nil.mp hnil with ⟨h1, h2⟩
    subst h1; subst h2
    simp only [List.nil_append, List.take_nil, List.map_nil, insertLevel,
      List.isEmpty_nil, if_true]
    rw [List.take_of_length_le (by simpa using hsize)]
    rfl
  have hout : ((s₁ ++ s₂).take size).map toOL =
      (s₁.take size).map toOL ++ (s₂.take (size - s₁.length)).map toOL := by
    rw [List.take_append_eq_append_take, List.map_append]
  have hA' : ∀ o ∈ (s₁.take size).map toOL, ¬ cmp_fn x.2 o.toLevel = .lt := by
    intro o ho
    rcases List.mem_map.mp ho with ⟨y, hy, rfl⟩
    rw [toLevel_toOL]
    exact hA1 y (List.mem_of_mem_take hy)
  have hB' : ∀ o ∈ (s₂.take (size - s₁.length)).map toOL,
      cmp_fn x.2 o.toLevel = .lt := by
    intro o ho
    rcases List.mem_map.mp ho with ⟨y, hy, rfl⟩
    rw [toLevel_toOL]
    exact hB1 y (List.mem_of_mem_take hy)
  have houtne : ((s₁ ++ s₂).take size).map toOL ≠ [] := by
    simp only [ne_eq, List.map_eq_nil_iff, List.take_eq_nil_iff]
    push_neg
    exact ⟨by omega, hne⟩
  rw [insertLevel.eq_def]
  rw [if_neg (by simpa [List.isEmpty_iff] using houtne)]
  rw [hout, findInsertIdx_spec cmp_fn size x.2 _ _ hA' hB']
  by_cases hB2 : s₂.take (size - s₁.length) = []
  · rw [hB2]
    have hAne : (s₁.take size).map toOL ≠ [] := by
      rw [hout, hB2] at houtne
      simpa using houtne
    rw [if_pos (by simp), if_neg (by simpa [List.isEmpty_iff] using hAne)]
    simp only [List.map_nil, List.append_nil]
    by_cases hlen : ((s₁.take size).map toOL).length < size
    · rw [if_pos hlen]
      have hp : s₁.length < size := by
        simp only [List.length_map, List.length_take] at hlen
        omega
      have htake₁ : s₁.take size = s₁ := List.take_of_length_le (le_of_lt hp)
      have hs₂nil : s₂ = [] := by
        rcases List.take_eq_nil_iff.mp hB2 with h | h
        · omega
        · exact h
      subst hs₂nil
      rw [htake₁]
      dsimp only
      rw [if_neg (by simp only [List.length_map]; omega),
        List.insertIdx_length_self,
        List.take_of_length_le (by simp only [List.length_append,
          List.length_cons, List.length_nil]; omega),
        List.map_append]
      rfl
    · rw [if_neg hlen]
      have hp : size ≤ s₁.length := by
        simp only [List.length_map, List.length_take] at hlen
        omega
      rw [List.take_append_eq_append_take]
      have h0 : size - s₁.length = 0 := by omega
      rw [h0, List.take_zero, List.append_nil]
  · rw [if_neg (by simpa [List.isEmpty_iff] using hB2)]
    have hs₂ne : s₂ ≠ [] := by
      intro h; exact hB2 (by simp [h])
    have hp : s₁.length < size := by
      by_contra h
      exact hB2 (by rw [show size - s₁.length = 0 by omega]; rfl)
    have htake₁ : s₁.take size = s₁ := List.take_of_length_le (le_of_lt hp)
    rw [htake₁]
    dsimp only
    by_cases hfull : size ≤
        (List.map toOL s₁ ++ (s₂.take (size - s₁.length)).map toOL).length
    · rw [if_pos hfull]
      have hlens : size - s₁.length ≤ s₂.length := by
        simp only [List.length_append, List.length_map, List.length_take] at hfull
        omega
      have hlen2 : size ≤ (s₁ ++ s₂).length := by
        simp only [List.length_append]
        omega
      rw [← List.map_append, ← List.map_dropLast,
        show s₁ ++ List.take (size - s₁.length) s₂ = List.take size (s₁ ++ s₂) from by
          rw [List.take_append_eq_append_take, htake₁],
        dropLast_take size (s₁ ++ s₂) hlen2,
        List.take_append_eq_append_take,
        List.take_of_length_le (show s₁.length ≤ size - 1 by omega),
        List.map_append, insertIdx_append_length,
        List.take_append_eq_append_take, htake₁,
        show size - s₁.length = (size - 1 - s₁.length) + 1 from by omega,
        List.take_succ_cons, List.map_append, List.map_cons]
      rfl
    · rw [if_neg hfull]
      have hlens : s₂.length < size - s₁.length := by
        simp only [List.length_append, List.length_map, List.length_take] at hfull
        omega
      rw [List.take_of_length_le (le_of_lt hlens), insertIdx_append_length,
        List.take_of_length_le (show (s₁ ++ x :: s₂).length ≤ size from by
          simp only [List.length_append, List.length_cons]; omega),
        List.map_append, List.map_cons]
      rfl

/-- One `insertLevel` step on the rendering of a sorted truncated list is
the rendering of the truncated stable insertion. -/
theorem insertLevel_sorted (cmp_fn : Level → Level → Ordering) (size : ℕ)
    (hsize : 1 ≤ size)
    (htrans : ∀ a b c : Level,
      cmp_fn a b = .lt → cmp_fn b c ≠ .gt → cmp_fn a c = .lt)
    (x : Exchange × Level) (s : List (Exchange × Level))
    (hs : List.Chain' (NotGt (pairCmp cmp_fn)) s) :
    insertLevel cmp_fn size x.1 x.2 ((s.take size).map toOL)
      = ((insertSorted (pairCmp cmp_fn) x s).take size).map toOL := by
  have htransP : ∀ a b c : Exchange × Level, pairCmp cmp_fn a b = .lt →
      pairCmp cmp_fn b c ≠ .gt → pairCmp cmp_fn a c = .lt :=
    fun a b c hab hbc => htrans a.2 b.2 c.2 hab hbc
  have hsplit := List.takeWhile_append_dropWhile
    (fun y => !(decide (pairCmp cmp_fn x y = .lt))) s
  have h := insertLevel_step_split cmp_fn size hsize x
    (s.takeWhile (fun y => !(decide (pairCmp cmp_fn x y = .lt))))
    (s.dropWhile (fun y => !(decide (pairCmp cmp_fn x y = .lt))))
    (fun y hy => by simpa using List.mem_takeWhile_imp hy)
    (mem_dropWhile_lt htransP x s hs)
  rw [hsplit] at h
  rw [h, insertSorted_eq_takeWhile]

/-- Folding levels through `insertLevel` keeps the output equal to the
rendered truncated stable sort of everything processed so far. -/
theorem foldl_insertLevel (cmp_fn : Level → Level → Ordering) (size : ℕ)
    (hsize : 1 ≤ size)
    (hsymm : ∀ a b : Level, (cmp_fn a b).swap = cmp_fn b a)
    (htrans : ∀ a b c : Level,
      cmp_fn a b = .lt → cmp_fn b c ≠ .gt → cmp_fn a c = .lt)
    (pairs : List (Exchange × Level)) :
    ∀ done : List (Exchange × Level),
      pairs.foldl (fun out p => insertLevel cmp_fn size p.1 p.2 out)
        (((sortStable (pairCmp cmp_fn) done).take size).map toOL)
      = ((sortStable (pairCmp cmp_fn) (done ++ pairs)).take size).map toOL := by
  have hsymmP : ∀ a b : Exchange × Level,
      (pairCmp cmp_fn a b).swap = pairCmp cmp_fn b a :=
    fun a b => hsymm a.2 b.2
  induction pairs with
  | nil => intro done; simp
  | cons p rest ih =>
      intro done
      rw [List.foldl_cons,
        insertLevel_sorted cmp_fn size hsize htrans p
          (sortStable (pairCmp cmp_fn) done) (sortStable_chain hsymmP done),
        ← sortStable_append_singleton, ih (done ++ [p]), List.append_assoc,
        List.singleton_append]

/-- Main identity: `calculate_levels` renders the first `size` entries of
the stable sort of all tagged levels, the exchanges' lists concatenated in
discriminant order. -/
theorem calculate_levels_eq_sortStable (exchanges : Exchange → List Level)
    (cmp_fn : Level → Level → Ordering) (size : ℕ) (hsize : 1 ≤ size)
    (hsymm : ∀ a b : Level, (cmp_fn a b).swap = cmp_fn b a)
    (htrans : ∀ a b c : Level,
      cmp_fn a b = .lt → cmp_fn b c ≠ .gt → cmp_fn a c = .lt) :
    calculate_levels exchanges cmp_fn size
      = ((sortStable (pairCmp cmp_fn) (allPairs exchanges)).take size).map toOL := by
  have hflat : calculate_levels exchanges cmp_fn size =
      (allPairs exchanges).foldl
        (fun out p => insertLevel cmp_fn size p.1 p.2 out) [] := by
    rw [calculate_levels, allPairs]
    simp [Exchange.all, List.foldl_append, List.foldl_map]
  rw [hflat]
  have h := foldl_insertLevel cmp_fn size hsize hsymm htrans (allPairs exchanges) []
  simpa [sortStable] using h

/-! ### The two level comparators are lawful -/

theorem cmp_ask_swap (a b : Level) : (a.cmp_ask b).swap = b.cmp_ask a := by
  simp only [Level.cmp_ask]
  rcases lt_trichotomy a.price b.price with h | h | h
  · rw [compare_lt_iff_lt.mpr h, compare_gt_iff_gt.mpr h]
    rfl
  · rw [compare_eq_iff_eq.mpr h, compare_eq_iff_eq.mpr h.symm, if_pos rfl,
      if_pos rfl, Ordering.swap_swap, rat_compare_swap]
  · rw [compare_gt_iff_gt.mpr h, compare_lt_iff_lt.mpr h]
    rfl

theorem cmp_bid_swap (a b : Level) : (a.cmp_bid b).swap = b.cmp_bid a := by
  simp only [Level.cmp_bid]
  rcases lt_trichotomy a.price b.price with h | h | h
  · rw [compare_lt_iff_lt.mpr h, compare_gt_iff_gt.mpr h]
    rfl
  · rw [compare_eq_iff_eq.mpr h, compare_eq_iff_eq.mpr h.symm, if_pos rfl,
      if_pos rfl, Ordering.swap_swap, rat_compare_swap]
  · rw [compare_gt_iff_gt.mpr h, compare_lt_iff_lt.mpr h]
    rfl

theorem cmp_ask_trans_lt (a b c : Level) (h1 : a.cmp_ask b = .lt)
    (h2 : b.cmp_ask c ≠ .gt) : a.cmp_ask c = .lt := by
  have h2' : b.price < c.price ∨ (b.price = c.price ∧ c.amount ≤ b.amount) := by
    rcases hbc : b.cmp_ask c with _ | _ | _
    · rcases (cmp_ask_lt_iff b c).mp hbc with h | ⟨h, h'⟩
      · exact Or.inl h
      · exact Or.inr ⟨h, le_of_lt h'⟩
    · rcases (cmp_ask_eq_iff b c).mp hbc with ⟨h, h'⟩
      exact Or.inr ⟨h, le_of_eq h'.symm⟩
    · exact absurd hbc h2
  rw [cmp_ask_lt_iff] at h1 ⊢
  rcases h1 with h1 | ⟨h1, h1'⟩ <;> rcases h2' with h2' | ⟨h2', h2''⟩
  · exact Or.inl (lt_trans h1 h2')
  · exact Or.inl (h2' ▸ h1)
  · exact Or.inl (by rw [h1]; exact h2')
  · exact Or.inr ⟨h1.trans h2', lt_of_le_of_lt h2'' h1'⟩

theorem cmp_bid_trans_lt (a b c : Level) (h1 : a.cmp_bid b = .lt)
    (h2 : b.cmp_bid c ≠ .gt) : a.cmp_bid c = .lt := by
  have h2' : c.price < b.price ∨ (b.price = c.price ∧ c.amount ≤ b.amount) := by
    rcases hbc : b.cmp_bid c with _ | _ | _
    · rcases (cmp_bid_lt_iff b c).mp hbc with h | ⟨h, h'⟩
      · exact Or.inl h
      · exact Or.inr ⟨h, le_of_lt h'⟩
    · rcases (cmp_bid_eq_iff b c).mp hbc with ⟨h, h'⟩
      exact Or.inr ⟨h, le_of_eq h'.symm⟩
    · exact absurd hbc h2
  rw [cmp_bid_lt_iff] at h1 ⊢
  rcases h1 with h1 | ⟨h1, h1'⟩ <;> rcases h2' with h2' | ⟨h2', h2''⟩
  · exact Or.inl (lt_trans h2' h1)
  · exact Or.inl (by rw [← h2']; exact h1)
  · exact Or.inl (h1 ▸ h2')
  · exact Or.inr ⟨h1.trans h2', lt_of_le_of_lt h2'' h1'⟩

/-! ### is_sorted is the adjacent chain -/

theorem is_sorted_iff_chain {α : Type} (cmp : α → α → Ordering) :
    ∀ l : List α, is_sorted l cmp = true ↔ List.Chain' (NotGt cmp) l
  | [] => by simp [is_sorted]
  | [a] => by simp [is_sorted]
  | a :: b :: rest => by
      rw [is_sorted, Bool.and_eq_true, List.chain'_cons,
        is_sorted_iff_chain cmp (b :: rest)]
      cases hab : cmp a b <;> simp [hab, NotGt] <;> intro h <;>
        first
          | rfl
          | exact absurd h (by decide)

/-! ### Length of the merged output (claim C10) -/

theorem findInsertIdx_isSome (cmp_fn : Level → Level → Ordering)
    (size len : ℕ) (x : Level) (hlen : len < size) :
    ∀ (l : List (ℕ × orderbook.Level)) (acc : Option ℕ),
      l ≠ [] ∨ acc.isSome = true →
      (findInsertIdx cmp_fn size len x l acc).isSome = true
  | [], acc, h => by
      rcases h with h | h
      · exact absurd rfl h
      · simpa [findInsertIdx] using h
  | (i, o) :: rest, acc, _ => by
      rw [findInsertIdx]
      by_cases hlt : cmp_fn x o.toLevel = .lt
      · rw [if_pos hlt]
        exact findInsertIdx_isSome cmp_fn size len x hlen rest (some i)
          (Or.inr rfl)
      · rw [if_neg hlt, if_pos hlen]
        rfl

theorem findInsertIdx_le (cmp_fn : Level → Level → Ordering)
    (size len : ℕ) (x : Level) (bound : ℕ) :
    ∀ (l : List (ℕ × orderbook.Level)) (acc : Option ℕ),
      (∀ p ∈ l, p.1 + 1 ≤ bound) → (∀ j, acc = some j → j ≤ bound) →
      ∀ j, findInsertIdx cmp_fn size len x l acc = some j → j ≤ bound
  | [], acc, _, hacc, j, hj => hacc j (by simpa [findInsertIdx] using hj)
  | (i, o) :: rest, acc, hl, hacc, j, hj => by
      rw [findInsertIdx] at hj
      by_cases hlt : cmp_fn x o.toLevel = .lt
      · rw [if_pos hlt] at hj
        refine findInsertIdx_le cmp_fn size len x bound rest (some i)
          (fun p hp => hl p (List.mem_cons_of_mem _ hp))
          (fun j' hj' => ?_) j hj
        have hi := hl (i, o) (List.mem_cons_self _ _)
        have : i = j' := by injection hj'
        omega
      · rw [if_neg hlt] at hj
        by_cases hsz : len < size
        · rw [if_pos hsz] at hj
          have : i + 1 = j := by injection hj
          have hi := hl (i, o) (List.mem_cons_self _ _)
          omega
        · rw [if_neg hsz] at hj
          exact hacc j hj

theorem findInsertIdx_lt_of_full (cmp_fn : Level → Level → Ordering)
    (size len : ℕ) (x : Level) (hfull : ¬ len < size) (bound : ℕ) :
    ∀ (l : List (ℕ × orderbook.Level)) (acc : Option ℕ),
      (∀ p ∈ l, p.1 < bound) → (∀ j, acc = some j → j < bound) →
      ∀ j, findInsertIdx cmp_fn size len x l acc = some j → j < bound
  | [], acc, _, hacc, j, hj => hacc j (by simpa [findInsertIdx] using hj)
  | (i, o) :: rest, acc, hl, hacc, j, hj => by
      rw [findInsertIdx] at hj
      by_cases hlt : cmp_fn x o.toLevel = .lt
      · rw [if_pos hlt] at hj
        refine findInsertIdx_lt_of_full cmp_fn size len x hfull bound rest
          (some i) (fun p hp => hl p (List.mem_cons_of_mem _ hp))
          (fun j' hj' => ?_) j hj
        have hi := hl (i, o) (List.mem_cons_self _ _)
        have : i = j' := by injection hj'
        omega
      · rw [if_neg hlt, if_neg hfull] at hj
        exact hacc j hj

theorem mem_enum_reverse_lt {α : Type} (l : List α) :
    ∀ p ∈ l.enum.reverse, p.1 < l.length := by
  intro p hp
  rw [List.mem_reverse] at hp
  rcases p with ⟨i, a⟩
  have h := List.mem_enumFrom (show (i, a) ∈ List.enumFrom 0 l from hp)
  omega

/-- Each `insertLevel` grows the output by one level until `size` is
reached and keeps the length at `size` afterwards, for any comparator and
any (even unsorted) output. -/
theorem insertLevel_length (cmp_fn : Level → Level → Ordering) (size : ℕ)
    (e : Exchange) (lvl : Level) (out : List orderbook.Level)
    (hsize : 1 ≤ size) (hout : out.length ≤ size) :
    (insertLevel cmp_fn size e lvl out).length = min size (out.length + 1) := by
  by_cases hne : out.isEmpty
  · have : out = [] := List.isEmpty_iff.mp hne
    subst this
    rw [insertLevel]
    simp
    omega
  · have houtne : out ≠ [] := fun h => by simp [h] at hne
    rw [insertLevel.eq_def, if_neg hne]
    have henumne : out.enum.reverse ≠ [] := by
      have : out.enum.reverse.length = out.length := by
        rw [List.length_reverse, List.enum_length]
      intro h
      rw [h] at this
      exact houtne (List.eq_nil_of_length_eq_zero this.symm)
    by_cases hlen : out.length < size
    · have hsome := findInsertIdx_isSome cmp_fn size out.length lvl hlen
        out.enum.reverse none (Or.inl henumne)
      obtain ⟨j, hj⟩ := Option.isSome_iff_exists.mp hsome
      rw [hj]
      have hjle : j ≤ out.length :=
        findInsertIdx_le cmp_fn size out.length lvl out.length
          out.enum.reverse none
          (fun p hp => mem_enum_reverse_lt out p hp)
          (fun j' hj' => by cases hj') j hj
      dsimp only
      rw [if_neg (by omega), List.length_insertIdx j out hjle]
      omega
    · cases hres : findInsertIdx cmp_fn size out.length lvl
          out.enum.reverse none with
      | none =>
          dsimp only
          omega
      | some j =>
          have hjlt : j < out.length :=
            findInsertIdx_lt_of_full cmp_fn size out.length lvl hlen
              out.length out.enum.reverse none
              (fun p hp => mem_enum_reverse_lt out p hp)
              (fun j' hj' => by cases hj') j hres
          dsimp only
          rw [if_pos (by omega), List.length_insertIdx j out.dropLast
            (by rw [List.length_dropLast]; omega), List.length_dropLast]
          omega

theorem foldl_insertLevel_length (cmp_fn : Level → Level → Ordering)
    (size : ℕ) (hsize : 1 ≤ size) :
    ∀ (pairs : List (Exchange × Level)) (out : List orderbook.Level),
      out.length ≤ size →
      (pairs.foldl (fun o p => insertLevel cmp_fn size p.1 p.2 o) out).length
        = min size (out.length + pairs.length)
  | [], out, hout => by
      simp only [List.foldl_nil, List.length_nil, Nat.add_zero]
      omega
  | p :: rest, out, hout => by
      rw [List.foldl_cons]
      have hstep := insertLevel_length cmp_fn size p.1 p.2 out hsize hout
      have hstep_le : (insertLevel cmp_fn size p.1 p.2 out).length ≤ size := by
        omega
      rw [foldl_insertLevel_length cmp_fn size hsize rest _ hstep_le, hstep]
      simp only [List.length_cons]
      omega

/-- The nested exchange/level loops of `calculate_levels` are one fold over
the tagged concatenation of the per-exchange lists. -/
theorem calculate_levels_foldl (exchanges : Exchange → List Level)
    (cmp_fn : Level → Level → Ordering) (size : ℕ) :
    calculate_levels exchanges cmp_fn size =
      (allPairs exchanges).foldl
        (fun out p => insertLevel cmp_fn size p.1 p.2 out) [] := by
  rw [calculate_levels, allPairs]
  simp [Exchange.all, List.foldl_append, List.foldl_map]

/-- C10: for any comparator and any per-exchange inputs (sorted or not),
`calculate_levels` with `size ≥ 1` returns exactly
`min size (total number of levels)` entries: nothing is dropped while
capacity remains, and each insertion beyond capacity evicts exactly one
entry. -/
theorem calculate_levels_length (exchanges : Exchange → List Level)
    (cmp_fn : Level → Level → Ordering) (size : ℕ) (hsize : 1 ≤ size) :
    (calculate_levels exchanges cmp_fn size).length =
      min size ((exchanges .binance).length + (exchanges .bitstamp).length) := by
  rw [calculate_levels_foldl,
    foldl_insertLevel_length cmp_fn size hsize (allPairs exchanges) []
      (by simp)]
  simp [allPairs, Exchange.all]

/-- Witness for C10: three unsorted levels across the exchanges with
capacity 2 yield exactly 2 output entries. -/
theorem calculate_levels_length_witness :
    (calculate_levels
      (fun e => match e with
        | .binance => [⟨1, 1⟩, ⟨3, 1⟩]
        | .bitstamp => [⟨2, 1⟩])
      Level.cmp_bid 2).length =
      min 2 (([(⟨1, 1⟩ : Level), ⟨3, 1⟩]).length + ([(⟨2, 1⟩ : Level)]).length) :=
  calculate_levels_length _ Level.cmp_bid 2 (by norm_num)

/-! ### Stability: equal keys keep insertion (exchange-ordinal) order -/

theorem pairwise_of_forall {α : Type} {R : α → α → Prop}
    (h : ∀ a b, R a b) : ∀ l : List α, List.Pairwise R l
  | [] => List.Pairwise.nil
  | a :: l => List.pairwise_cons.mpr ⟨fun b _ => h a b, pairwise_of_forall h l⟩

/-- Inserting a new element into a sorted list keeps any pairwise relation
`Q` that holds of every old element towards the new one and is implied by a
strict comparison win of the new element. -/
theorem insertSorted_pairwise {α : Type} {cmp : α → α → Ordering}
    {Q : α → α → Prop}
    (hQlt : ∀ a b, cmp a b = .lt → Q a b)
    (htrans : ∀ a b c, cmp a b = .lt → cmp b c ≠ .gt → cmp a c = .lt)
    (x : α) (l : List α) (hchain : List.Chain' (NotGt cmp) l)
    (hl : List.Pairwise Q l) (hx : ∀ y ∈ l, Q y x) :
    List.Pairwise Q (insertSorted cmp x l) := by
  rw [insertSorted_eq_takeWhile]
  have hsplit := List.takeWhile_append_dropWhile
    (fun y => !(decide (cmp x y = .lt))) l
  have hpw := hl
  rw [← hsplit, List.pairwise_append] at hpw
  rcases hpw with ⟨hpw₁, hpw₂, hcross⟩
  rw [List.pairwise_append, List.pairwise_cons]
  refine ⟨hpw₁, ⟨?_, hpw₂⟩, ?_⟩
  · intro z hz
    exact hQlt x z (mem_dropWhile_lt htrans x l hchain z hz)
  · intro a ha b hb
    rcases List.mem_cons.mp hb with rfl | hb
    · exact hx a ((List.takeWhile_sublist _).mem ha)
    · exact hcross a ha b hb

/-- The stable sort of an ordinal-ordered list keeps `Q` pairwise. -/
theorem sortStable_pairwise {α : Type} {cmp : α → α → Ordering}
    {Q : α → α → Prop}
    (hsymm : ∀ a b, (cmp a b).swap = cmp b a)
    (hQlt : ∀ a b, cmp a b = .lt → Q a b)
    (htrans : ∀ a b c, cmp a b = .lt → cmp b c ≠ .gt → cmp a c = .lt)
    (l : List α) (hl : List.Pairwise Q l) :
    List.Pairwise Q (sortStable cmp l) := by
  induction l using List.reverseRecOn with
  | nil => simp [sortStable]
  | append_singleton l x ih =>
      rw [sortStable_append_singleton]
      rw [List.pairwise_append] at hl
      rcases hl with ⟨hl, _, hcross⟩
      exact insertSorted_pairwise hQlt htrans x _ (sortStable_chain hsymm l)
        (ih hl)
        (fun y hy => hcross y ((mem_sortStable cmp y l).mp hy) x
          (List.mem_singleton_self x))

/-- All tagged pairs are listed in non-decreasing exchange-ordinal order. -/
theorem allPairs_ordinal_pairwise (exchanges : Exchange → List Level) :
    List.Pairwise (fun a b : Exchange × Level => a.1.ordinal ≤ b.1.ordinal)
      (allPairs exchanges) := by
  rw [allPairs]
  simp only [Exchange.all, List.flatMap_cons, List.flatMap_nil, List.append_nil]
  rw [List.pairwise_append]
  refine ⟨?_, ?_, ?_⟩
  · rw [List.pairwise_map]
    exact pairwise_of_forall (fun a b => le_refl _) _
  · rw [List.pairwise_map]
    exact pairwise_of_forall (fun a b => le_refl _) _
  · intro a ha b hb
    rcases List.mem_map.mp ha with ⟨la, _, rfl⟩
    rcases List.mem_map.mp hb with ⟨lb, _, rfl⟩
    simp [Exchange.ordinal]

/-! ### Claim C2: calculate_levels merges pre-sorted inputs into the top N -/

/-- C2: given per-exchange lists pre-sorted by a lawful comparator,
`calculate_levels` returns the rendering of the first `size` entries of the
stable sort of all tagged levels (exchanges concatenated in ordinal order):
a single sequence sorted by the comparator holding the `size` best levels,
ties resolved by the comparator's amount-descending tie-break, and fully
equal `(price, amount)` pairs ordered by exchange ordinal (lower first);
in particular the spec's bid example with `N = 2` yields
`[(binance, 51, 3), (bitstamp, 51, 2)]`. -/
theorem calculate_levels_topn_spec (exchanges : Exchange → List Level)
    (cmp_fn : Level → Level → Ordering) (size : ℕ) (hsize : 1 ≤ size)
    (hsymm : ∀ a b : Level, (cmp_fn a b).swap = cmp_fn b a)
    (htrans : ∀ a b c : Level,
      cmp_fn a b = .lt → cmp_fn b c ≠ .gt → cmp_fn a c = .lt)
    (hsorted : ∀ e : Exchange, is_sorted (exchanges e) cmp_fn = true) :
    calculate_levels exchanges cmp_fn size
      = ((sortStable (pairCmp cmp_fn) (allPairs exchanges)).take size).map toOL
  ∧ is_sorted (calculate_levels exchanges cmp_fn size)
      (fun a b => cmp_fn a.toLevel b.toLevel) = true
  ∧ List.Pairwise
      (fun a b : Exchange × Level =>
        pairCmp cmp_fn a b = .eq → a.1.ordinal ≤ b.1.ordinal)
      ((sortStable (pairCmp cmp_fn) (allPairs exchanges)).take size)
  ∧ calculate_levels
      (fun e => match e with
        | .binance => [⟨51, 3⟩, ⟨51, 1⟩]
        | .bitstamp => [⟨51, 2⟩, ⟨51, 1⟩])
      Level.cmp_bid 2
      = [⟨"binance", 51, 3⟩, ⟨"bitstamp", 51, 2⟩] := by
  have hsymmP : ∀ a b : Exchange × Level,
      (pairCmp cmp_fn a b).swap = pairCmp cmp_fn b a :=
    fun a b => hsymm a.2 b.2
  have htransP : ∀ a b c : Exchange × Level, pairCmp cmp_fn a b = .lt →
      pairCmp cmp_fn b c ≠ .gt → pairCmp cmp_fn a c = .lt :=
    fun a b c => htrans a.2 b.2 c.2
  have hmain := calculate_levels_eq_sortStable exchanges cmp_fn size hsize
    hsymm htrans
  refine ⟨hmain, ?_, ?_, by decide⟩
  · rw [hmain, is_sorted_iff_chain, List.chain'_map]
    have hchain := (sortStable_chain hsymmP (allPairs exchanges)).take size
    exact hchain.imp (fun a b h => by
      simpa [NotGt, toLevel_toOL] using h)
  · refine List.Pairwise.sublist (List.take_sublist size _) ?_
    refine sortStable_pairwise hsymmP ?_ htransP _ ?_
    · intro a b hab heq
      rw [hab] at heq
      cases heq
    · exact (allPairs_ordinal_pairwise exchanges).imp
        (fun {a b} (h : a.1.ordinal ≤ b.1.ordinal)
          (_ : pairCmp cmp_fn a b = .eq) => h)

/-- Witness for C2: the spec's equal-price bid example. -/
theorem calculate_levels_topn_spec_witness :
    calculate_levels
      (fun e => match e with
        | .binance => [⟨51, 3⟩, ⟨51, 1⟩]
        | .bitstamp => [⟨51, 2⟩, ⟨51, 1⟩])
      Level.cmp_bid 2
      = [⟨"binance", 51, 3⟩, ⟨"bitstamp", 51, 2⟩] :=
  (calculate_levels_topn_spec
    (fun e => match e with
      | .binance => [⟨51, 3⟩, ⟨51, 1⟩]
      | .bitstamp => [⟨51, 2⟩, ⟨51, 1⟩])
    Level.cmp_bid 2 (by norm_num) cmp_bid_swap cmp_bid_trans_lt
    (fun e => by cases e <;> decide)).2.2.2

/-! ### Claim C1: invariants of every emitted summary -/

theorem mem_merge_emitted (inputs : List InputUpdate) :
    ∀ (st : MergeState) (s : orderbook.Summary),
      s ∈ merge_emitted st inputs → ∃ st' : MergeState, s = st'.summary := by
  induction inputs with
  | nil => intro st s h; simp [merge_emitted] at h
  | cons u rest ih =>
      intro st s h
      rw [merge_emitted] at h
      rcases List.mem_cons.mp h with rfl | h
      · exact ⟨st.update u, rfl⟩
      · exact ih (st.update u) s h

set_option maxHeartbeats 1000000 in
/-- Every summary computed from any `MergeState` satisfies the sortedness,
size and spread invariants. -/
theorem summary_props (st : MergeState) :
    is_sorted (st.summary.asks.map orderbook.Level.toLevel) Level.cmp_ask = true
  ∧ is_sorted (st.summary.bids.map orderbook.Level.toLevel) Level.cmp_bid = true
  ∧ st.summary.asks.length ≤ TOP_LEVELS * Exchange.VARIANT_COUNT
  ∧ st.summary.bids.length ≤ TOP_LEVELS * Exchange.VARIANT_COUNT
  ∧ (match st.summary.asks, st.summary.bids with
      | a :: _, b :: _ => st.summary.spread = a.price - b.price
      | _, _ => st.summary.spread = 0) := by
  have hasks : st.summary.asks =
      calculate_levels st.asks Level.cmp_ask
        (TOP_LEVELS * Exchange.VARIANT_COUNT) := by
    simp only [MergeState.summary]
  have hbids : st.summary.bids =
      calculate_levels st.bids Level.cmp_bid
        (TOP_LEVELS * Exchange.VARIANT_COUNT) := by
    simp only [MergeState.summary]
  have hma := calculate_levels_eq_sortStable st.asks Level.cmp_ask
    (TOP_LEVELS * Exchange.VARIANT_COUNT)
    (by norm_num [TOP_LEVELS, Exchange.VARIANT_COUNT])
    cmp_ask_swap cmp_ask_trans_lt
  have hmb := calculate_levels_eq_sortStable st.bids Level.cmp_bid
    (TOP_LEVELS * Exchange.VARIANT_COUNT)
    (by norm_num [TOP_LEVELS, Exchange.VARIANT_COUNT])
    cmp_bid_swap cmp_bid_trans_lt
  refine ⟨?_, ?_, ?_, ?_, ?_⟩
  · rw [hasks, hma, is_sorted_iff_chain, List.map_map, List.chain'_map]
    have h := (sortStable_chain (fun a b : Exchange × Level =>
      cmp_ask_swap a.2 b.2) (allPairs st.asks)).take
      (TOP_LEVELS * Exchange.VARIANT_COUNT)
    exact h.imp (fun a b hab => hab)
  · rw [hbids, hmb, is_sorted_iff_chain, List.map_map, List.chain'_map]
    have h := (sortStable_chain (fun a b : Exchange × Level =>
      cmp_bid_swap a.2 b.2) (allPairs st.bids)).take
      (TOP_LEVELS * Exchange.VARIANT_COUNT)
    exact h.imp (fun a b hab => hab)
  · rw [hasks, hma]
    simp [List.length_take]
  · rw [hbids, hmb]
    simp [List.length_take]
  · rcases hA : calculate_levels st.asks Level.cmp_ask
        (TOP_LEVELS * Exchange.VARIANT_COUNT) with _ | ⟨a, as⟩ <;>
      rcases hB : calculate_levels st.bids Level.cmp_bid
          (TOP_LEVELS * Exchange.VARIANT_COUNT) with _ | ⟨b, bs⟩ <;>
      simp only [MergeState.summary, hA, hB]

/-- C1: every summary emitted while feeding any sequence of updates to a
fresh `MergeState` has asks sorted by `cmp_ask`, bids sorted by `cmp_bid`,
at most `TOP_LEVELS * Exchange::VARIANT_COUNT = 20` entries per side, and
spread `asks[0].price - bids[0].price` when both sides are non-empty and
`0` otherwise. -/
theorem merge_summary_invariants (inputs : List InputUpdate)
    (s : orderbook.Summary) (hs : s ∈ merge_emitted MergeState.new inputs) :
    is_sorted (s.asks.map orderbook.Level.toLevel) Level.cmp_ask = true
  ∧ is_sorted (s.bids.map orderbook.Level.toLevel) Level.cmp_bid = true
  ∧ s.asks.length ≤ TOP_LEVELS * Exchange.VARIANT_COUNT
  ∧ s.bids.length ≤ TOP_LEVELS * Exchange.VARIANT_COUNT
  ∧ (match s.asks, s.bids with
      | a :: _, b :: _ => s.spread = a.price - b.price
      | _, _ => s.spread = 0) := by
  obtain ⟨st, rfl⟩ := mem_merge_emitted inputs MergeState.new s hs
  exact summary_props st

/-- Witness for C1: the summary emitted after a single binance update. -/
theorem merge_summary_invariants_witness :
    is_sorted (((MergeState.new.update
        ⟨.binance, [⟨2, 1⟩], [⟨1, 1⟩]⟩).summary.asks.map
      orderbook.Level.toLevel)) Level.cmp_ask = true
  ∧ ((MergeState.new.update
        ⟨.binance, [⟨2, 1⟩], [⟨1, 1⟩]⟩).summary.asks.length ≤
      TOP_LEVELS * Exchange.VARIANT_COUNT) :=
  have h := merge_summary_invariants [⟨.binance, [⟨2, 1⟩], [⟨1, 1⟩]⟩]
    (MergeState.new.update ⟨.binance, [⟨2, 1⟩], [⟨1, 1⟩]⟩).summary
    (by simp [merge_emitted])
  ⟨h.1, h.2.2.1⟩
